import Mathlib

/-!
Verification of the top-down cumulative trapezoidal integrator of the IMPACT
validation scripts.  The central routine is `integrate_from_top` from
`IMPACT_MATLAB/test_numerical_methods.py` (lines 96-107); the same backward
accumulation loop appears, re-indexed, as `analytical_cumulative_manual` in
`IMPACT_MATLAB/debug_nonuniform.py`, and the flip/cumtrapz/flip formulation
appears as `integrate_from_top_v1` in that file.  Arrays of floats are
modelled as `List ℚ`; NaN-carrying rate arrays as `List (Option ℚ)` with
`none` playing the role of NaN.
-/

namespace Impact

open List Finset

/-- Embedding of `integrate_from_top` (`IMPACT_MATLAB/test_numerical_methods.py`,
lines 96-107).  The Python code allocates `q_cum = np.zeros(n)` with
`n = len(z)` and runs the backward loop
`for i in range(n-1, 0, -1): dz = z[i] - z[i-1]; if dz != 0:
q_cum[i-1] = q_cum[i] + 0.5*(q_tot[i-1] + q_tot[i]) * dz`,
so the entry at the last index stays `0` and, when a step has `dz == 0`, the
assignment is skipped and that entry stays at its initialised value `0`.
Each recursion step below is one loop iteration.  When `q_tot` is strictly
shorter than `z`, the rate reads `q_tot[i-1]`, `q_tot[i]` sit inside the
`dz != 0` guard, so the Python code raises an index error only when some
out-of-range step has a nonzero altitude difference; those short-`q_tot`
inputs are rendered here as `[]` placeholders and are modelled exactly,
guard included, by `integrate_from_top_run` below.  When `q_tot` is longer
than `z`, the loop simply never reads the extra entries, which the first
and third equations reproduce. -/
def integrate_from_top : List ℚ → List ℚ → List ℚ
  | z0 :: z1 :: zs, q0 :: q1 :: qs =>
    let rest := integrate_from_top (z1 :: zs) (q1 :: qs)
    (if z1 - z0 = 0 then 0 else rest.headD 0 + 1 / 2 * (q0 + q1) * (z1 - z0)) :: rest
  | _ :: _ :: _, _ => []
  | [_], _ => [0]
  | [], _ => []

/-- The trapezoid area attached to grid segment `k`: the quantity
`0.5 * (rate[k] + rate[k+1]) * (altitude[k+1] - altitude[k])` accumulated by
the loop of `integrate_from_top`. -/
def trap (z q : List ℚ) (k : ℕ) : ℚ :=
  1 / 2 * (q.getD k 0 + q.getD (k + 1) 0) * (z.getD (k + 1) 0 - z.getD k 0)

/-- The only error `integrate_from_top` can hit at run time: numpy raises an
index error when the loop reads `q_tot[i]` past the end of the rate array.
The Python function contains no shape validation of its own. -/
inductive IntegrationError
  | indexOutOfBounds

/-- Error-aware rendering of the same loop: identical arithmetic to
`integrate_from_top`, but the rate-array accesses are bounds-checked as in
numpy.  The reads `q_tot[i-1]`, `q_tot[i]` happen inside the Python
`if dz_local != 0:` guard, so a loop step whose rate entries are missing
(fewer than two rate entries remain alongside at least two altitude
entries) raises only when its altitude difference is nonzero; with a
zero-width step the read is skipped, `q_cum[i-1]` stays `0`, and the loop
continues.  Deeper steps read even later rate indices, hence the recursive
calls in the short-rate equations carry the empty rate list.  No other
input can fail. -/
def integrate_from_top_run : List ℚ → List ℚ → Except IntegrationError (List ℚ)
  | z0 :: z1 :: zs, q0 :: q1 :: qs =>
    match integrate_from_top_run (z1 :: zs) (q1 :: qs) with
    | Except.error e => Except.error e
    | Except.ok rest =>
      Except.ok ((if z1 - z0 = 0 then 0 else rest.headD 0 + 1 / 2 * (q0 + q1) * (z1 - z0)) :: rest)
  | z0 :: z1 :: zs, [_] =>
    if z1 - z0 = 0 then
      match integrate_from_top_run (z1 :: zs) [] with
      | Except.error e => Except.error e
      | Except.ok rest => Except.ok (0 :: rest)
    else Except.error IntegrationError.indexOutOfBounds
  | z0 :: z1 :: zs, [] =>
    if z1 - z0 = 0 then
      match integrate_from_top_run (z1 :: zs) [] with
      | Except.error e => Except.error e
      | Except.ok rest => Except.ok (0 :: rest)
    else Except.error IntegrationError.indexOutOfBounds
  | [_], _ => Except.ok [0]
  | [], _ => Except.ok []

/-- IEEE addition restricted to finite-or-NaN values: `none` is NaN and
absorbs, `some` adds. -/
def nadd : Option ℚ → Option ℚ → Option ℚ
  | some x, some y => some (x + y)
  | _, _ => none

/-- The loop of `integrate_from_top` run on a rate array that may contain
NaN (`none`).  Altitude entries are genuine numbers, so the `dz != 0` guard
is unchanged; the area `0.5 * (q[i-1] + q[i]) * dz` is NaN exactly when one
of the two rate entries is NaN, and `q_cum[i] + area` is NaN exactly when
either operand is, matching IEEE float arithmetic on finite-or-NaN data. -/
def integrate_from_top_nan : List ℚ → List (Option ℚ) → List (Option ℚ)
  | z0 :: z1 :: zs, q0 :: q1 :: qs =>
    let rest := integrate_from_top_nan (z1 :: zs) (q1 :: qs)
    (if z1 - z0 = 0 then some 0
     else nadd (rest.headD (some 0)) ((nadd q0 q1).map fun s => 1 / 2 * s * (z1 - z0))) :: rest
  | _ :: _ :: _, _ => []
  | [_], _ => [some 0]
  | [], _ => []

/-- Accumulator loop of scipy's `cumulative_trapezoid(y, x)`: each step adds
`(x[m] - x[m-1]) * (y[m] + y[m-1]) / 2` to the running total and emits it. -/
def cumtrapzAux (acc : ℚ) : List ℚ → List ℚ → List ℚ
  | y0 :: y1 :: ys, x0 :: x1 :: xs =>
    (acc + (x1 - x0) * (y1 + y0) / 2) ::
      cumtrapzAux (acc + (x1 - x0) * (y1 + y0) / 2) (y1 :: ys) (x1 :: xs)
  | _, _ => []

/-- scipy `integrate.cumulative_trapezoid(y, x, initial=0)` as called by
`integrate_from_top_v1` in `IMPACT_MATLAB/debug_nonuniform.py`: a leading
`0` followed by the running trapezoid totals over consecutive pairs. -/
def cumulative_trapezoid (y x : List ℚ) : List ℚ :=
  match y, x with
  | _ :: _, _ :: _ => 0 :: cumtrapzAux 0 y x
  | _, _ => []

/-- Embedding of `integrate_from_top_v1` (`IMPACT_MATLAB/debug_nonuniform.py`,
lines 7-13): `q_cum = -flip(cumulative_trapezoid(flip(q_tot), flip(z), initial=0))`. -/
def integrate_from_top_v1 (z q : List ℚ) : List ℚ :=
  ((cumulative_trapezoid q.reverse z.reverse).reverse).map (fun a => -a)

/-- The head with default equals indexing at `0` with the same default. -/
theorem headD_eq_getD {α : Type} (l : List α) (d : α) : l.headD d = l.getD 0 d := by
  cases l <;> rfl

/-- Shifting `trap` across a common `cons` on both arrays. -/
theorem trap_cons_succ (a b : ℚ) (z q : List ℚ) (k : ℕ) :
    trap (a :: z) (b :: q) (k + 1) = trap z q k := by
  simp [trap]

/-- The result of `integrate_from_top` has one entry per altitude entry
whenever the rate array is at least as long. -/
theorem integrate_from_top_length (z : List ℚ) :
    ∀ q : List ℚ, z.length ≤ q.length → (integrate_from_top z q).length = z.length := by
  induction z with
  | nil => intro q _; simp [integrate_from_top]
  | cons z0 zt ih =>
    intro q hlen
    cases zt with
    | nil =>
      cases q with
      | nil => simp at hlen
      | cons q0 qt => simp [integrate_from_top]
    | cons z1 zs =>
      cases q with
      | nil => simp at hlen
      | cons q0 qt =>
        cases qt with
        | nil => simp at hlen
        | cons q1 qs =>
          have h := ih (q1 :: qs) (by simpa using hlen)
          simp only [integrate_from_top, List.length_cons]
          simp [h]

/-- Master characterisation: when no altitude step is zero, the entry at
index `i` is the sum of the trapezoid areas of the segments between `i` and
the last index.  In particular the accumulation is anchored at the last
index of the arrays, whatever the storage order of the grid. -/
theorem integrate_from_top_getD (z : List ℚ) :
    ∀ (q : List ℚ), z.length = q.length → List.Chain' (fun a b => a ≠ b) z → ∀ i : ℕ,
    (integrate_from_top z q).getD i 0 = ∑ k ∈ Finset.Ico i (z.length - 1), trap z q k := by
  induction z with
  | nil => intro q hlen hz i; simp [integrate_from_top]
  | cons z0 zt ih =>
    intro q hlen hz i
    cases zt with
    | nil =>
      cases q with
      | nil => simp at hlen
      | cons q0 qt =>
        cases i <;> simp [integrate_from_top]
    | cons z1 zs =>
      cases q with
      | nil => simp at hlen
      | cons q0 qt =>
        cases qt with
        | nil => simp at hlen
        | cons q1 qs =>
          rw [List.chain'_cons] at hz
          have hlen' : (z1 :: zs).length = (q1 :: qs).length := by
            simpa using hlen
          have hne : z1 - z0 ≠ 0 := sub_ne_zero.mpr (Ne.symm hz.1)
          cases i with
          | zero =>
            simp only [integrate_from_top, if_neg hne, List.getD_cons_zero]
            rw [headD_eq_getD, ih (q1 :: qs) hlen' hz.2 0]
            simp only [← Finset.range_eq_Ico]
            simp only [List.length_cons, Nat.add_sub_cancel]
            rw [Finset.sum_range_succ']
            have hshift : ∀ k : ℕ,
                trap (z0 :: z1 :: zs) (q0 :: q1 :: qs) (k + 1) = trap (z1 :: zs) (q1 :: qs) k :=
              fun k => trap_cons_succ _ _ _ _ k
            have h0 : trap (z0 :: z1 :: zs) (q0 :: q1 :: qs) 0 = 1 / 2 * (q0 + q1) * (z1 - z0) := by
              simp [trap]
            simp only [hshift, h0]
          | succ j =>
            simp only [integrate_from_top, List.getD_cons_succ]
            rw [ih (q1 :: qs) hlen' hz.2 j]
            rw [Finset.sum_Ico_eq_sum_range, Finset.sum_Ico_eq_sum_range]
            simp only [List.length_cons, Nat.add_sub_cancel]
            have harith : zs.length - j = zs.length + 1 - (j + 1) := by omega
            rw [← harith]
            refine Finset.sum_congr rfl fun t ht => ?_
            have : j + 1 + t = (j + t) + 1 := by omega
            rw [this, trap_cons_succ]

/-- On a strictly increasing list, entries indexed by `getD` are monotone. -/
theorem chain'_lt_getD_le (z : List ℚ) (hz : List.Chain' (fun a b => a < b) z) {i j : ℕ}
    (hij : i ≤ j) (hj : j < z.length) : z.getD i 0 ≤ z.getD j 0 := by
  rcases Nat.eq_or_lt_of_le hij with rfl | hlt
  · exact le_refl _
  · have hp := List.chain'_iff_pairwise.mp hz
    rw [List.pairwise_iff_get] at hp
    rw [List.getD_eq_getElem _ _ (lt_of_le_of_lt hij hj), List.getD_eq_getElem _ _ hj]
    exact le_of_lt (hp ⟨i, lt_of_le_of_lt hij hj⟩ ⟨j, hj⟩ hlt)

/-- Telescoping sum over an interval. -/
theorem sum_Ico_telescope (g : ℕ → ℚ) {i m : ℕ} (h : i ≤ m) :
    ∑ k ∈ Finset.Ico i m, (g (k + 1) - g k) = g m - g i := by
  rw [Finset.sum_Ico_eq_sum_range]
  have hcong : ∀ t ∈ Finset.range (m - i), g (i + t + 1) - g (i + t) =
      (fun s => g (i + s)) (t + 1) - (fun s => g (i + s)) t := by
    intro t _
    simp [Nat.add_assoc]
  rw [Finset.sum_congr rfl hcong, Finset.sum_range_sub (fun s => g (i + s))]
  rw [Nat.add_sub_cancel' h]
  simp

/-- A strictly increasing altitude list has pairwise-distinct neighbours. -/
theorem chain'_lt_chain'_ne (z : List ℚ) (hz : List.Chain' (fun a b => a < b) z) :
    List.Chain' (fun a b => a ≠ b) z :=
  List.Chain'.imp (fun _ _ h => ne_of_lt h) hz

/-- Exactness of the loop for affine rate profiles: on a strictly increasing
grid the output at `i` is the antiderivative difference between the last
grid point and point `i`. -/
theorem integrate_from_top_affine_getD (z q : List ℚ) (m b : ℚ) (hlen : z.length = q.length)
    (hz : List.Chain' (fun a b => a < b) z)
    (hq : ∀ i, i < z.length → q.getD i 0 = m * z.getD i 0 + b)
    {i : ℕ} (hi : i < z.length) :
    (integrate_from_top z q).getD i 0 =
      (m * (z.getD (z.length - 1) 0) ^ 2 / 2 + b * z.getD (z.length - 1) 0)
        - (m * (z.getD i 0) ^ 2 / 2 + b * z.getD i 0) := by
  rw [integrate_from_top_getD z q hlen (chain'_lt_chain'_ne z hz) i]
  have hsum : ∀ k ∈ Finset.Ico i (z.length - 1),
      trap z q k = (fun s => m * (z.getD s 0) ^ 2 / 2 + b * z.getD s 0) (k + 1)
                 - (fun s => m * (z.getD s 0) ^ 2 / 2 + b * z.getD s 0) k := by
    intro k hk
    rw [Finset.mem_Ico] at hk
    have hk1 : k < z.length := by omega
    have hk2 : k + 1 < z.length := by omega
    rw [trap, hq k hk1, hq (k + 1) hk2]
    ring
  rw [Finset.sum_congr rfl hsum]
  exact sum_Ico_telescope (fun s => m * z.getD s 0 ^ 2 / 2 + b * z.getD s 0) (by omega)

/-- Trapezoid areas are non-negative for non-negative rates on an
increasing grid. -/
theorem trap_nonneg_of_increasing (z q : List ℚ) (hlen : z.length = q.length)
    (hz : List.Chain' (fun a b => a < b) z)
    (hq : ∀ i, i < z.length → 0 ≤ q.getD i 0)
    {k : ℕ} (hk : k + 1 < z.length) : 0 ≤ trap z q k := by
  have h1 : 0 ≤ q.getD k 0 := hq k (by omega)
  have h2 : 0 ≤ q.getD (k + 1) 0 := hq (k + 1) hk
  have h3 : z.getD k 0 ≤ z.getD (k + 1) 0 := chain'_lt_getD_le z hz (by omega) hk
  rw [trap]
  have : 0 ≤ z.getD (k + 1) 0 - z.getD k 0 := by linarith
  positivity

/-- NaN-absorbing addition is NaN exactly when an operand is. -/
theorem nadd_eq_none (a b : Option ℚ) : nadd a b = none ↔ a = none ∨ b = none := by
  cases a <;> cases b <;> simp [nadd]

/-- NaN characterisation of the loop: when no altitude step is zero, the
entry at index `i` is NaN exactly when some segment between `i` and the
last index touches a NaN rate entry. -/
theorem integrate_from_top_nan_none_iff (z : List ℚ) :
    ∀ (q : List (Option ℚ)), z.length = q.length →
    List.Chain' (fun a b => a ≠ b) z → ∀ i : ℕ,
    ((integrate_from_top_nan z q).getD i (some 0) = none ↔
      ∃ j : ℕ, i ≤ j ∧ j + 1 < z.length ∧
        (q.getD j (some 0) = none ∨ q.getD (j + 1) (some 0) = none)) := by
  induction z with
  | nil =>
    intro q hlen hz i
    simp [integrate_from_top_nan]
  | cons z0 zt ih =>
    intro q hlen hz i
    cases zt with
    | nil =>
      cases q with
      | nil => simp at hlen
      | cons q0 qt =>
        constructor
        · intro h
          exfalso
          cases i with
          | zero => simp [integrate_from_top_nan] at h
          | succ j => simp [integrate_from_top_nan] at h
        · rintro ⟨j, _, hj1, _⟩
          simp at hj1
    | cons z1 zs =>
      cases q with
      | nil => simp at hlen
      | cons q0 qt =>
        cases qt with
        | nil => simp at hlen
        | cons q1 qs =>
          rw [List.chain'_cons] at hz
          have hlen' : (z1 :: zs).length = (q1 :: qs).length := by simpa using hlen
          have hne : z1 - z0 ≠ 0 := sub_ne_zero.mpr (Ne.symm hz.1)
          cases i with
          | zero =>
            simp only [integrate_from_top_nan, if_neg hne, List.getD_cons_zero]
            rw [nadd_eq_none, headD_eq_getD, ih (q1 :: qs) hlen' hz.2 0]
            constructor
            · rintro (⟨j, _, hj1, hcond⟩ | harea)
              · refine ⟨j + 1, by omega, ?_, by simpa using hcond⟩
                simp only [List.length_cons] at hj1 ⊢
                omega
              · rw [Option.map_eq_none', nadd_eq_none] at harea
                refine ⟨0, by omega, ?_, by simpa using harea⟩
                simp only [List.length_cons]
                omega
            · rintro ⟨j, _, hj1, hcond⟩
              cases j with
              | zero =>
                right
                rw [Option.map_eq_none', nadd_eq_none]
                simpa using hcond
              | succ j' =>
                left
                exact ⟨j', by omega, by simp at hj1 ⊢; omega, by simpa using hcond⟩
          | succ j =>
            simp only [integrate_from_top_nan, List.getD_cons_succ]
            rw [ih (q1 :: qs) hlen' hz.2 j]
            constructor
            · rintro ⟨j', hjj, hj1, hcond⟩
              exact ⟨j' + 1, by omega, by simp at hj1 ⊢; omega, by simpa using hcond⟩
            · rintro ⟨j', hjj, hj1, hcond⟩
              cases j' with
              | zero => omega
              | succ j'' =>
                exact ⟨j'', by omega, by simp at hj1 ⊢; omega, by simpa using hcond⟩

/-- Reversal swaps `getD` indices across the list. -/
theorem getD_reverse_eq (l : List ℚ) {i : ℕ} (hi : i < l.length) :
    l.reverse.getD i 0 = l.getD (l.length - 1 - i) 0 := by
  rw [List.getD_eq_getElem _ _ (by simpa using hi), List.getD_eq_getElem _ _ (by omega)]
  exact List.getElem_reverse _

/-- The accumulator loop of `cumulative_trapezoid` emits one entry per
consecutive pair. -/
theorem cumtrapzAux_length (y : List ℚ) : ∀ (x : List ℚ) (acc : ℚ), y.length = x.length →
    (cumtrapzAux acc y x).length = y.length - 1 := by
  induction y with
  | nil => intro x acc _; simp [cumtrapzAux]
  | cons y0 yt ih =>
    intro x acc hlen
    cases yt with
    | nil =>
      cases x with
      | nil => simp at hlen
      | cons x0 xt =>
        cases xt with
        | nil => simp [cumtrapzAux]
        | cons x1 xs => simp at hlen
    | cons y1 ys =>
      cases x with
      | nil => simp at hlen
      | cons x0 xt =>
        cases xt with
        | nil => simp at hlen
        | cons x1 xs =>
          have h := ih (x1 :: xs) (acc + (x1 - x0) * (y1 + y0) / 2) (by simpa using hlen)
          simp only [cumtrapzAux, List.length_cons]
          simp only [List.length_cons] at h
          omega

/-- Entries of the accumulator loop are the accumulator plus a partial
trapezoid sum. -/
theorem cumtrapzAux_getD (y : List ℚ) : ∀ (x : List ℚ) (acc : ℚ) (j : ℕ),
    y.length = x.length → j + 1 < y.length →
    (cumtrapzAux acc y x).getD j 0 =
      acc + ∑ t ∈ Finset.range (j + 1),
        (x.getD (t + 1) 0 - x.getD t 0) * (y.getD (t + 1) 0 + y.getD t 0) / 2 := by
  induction y with
  | nil => intro x acc j _ hj; simp at hj
  | cons y0 yt ih =>
    intro x acc j hlen hj
    cases yt with
    | nil => simp at hj
    | cons y1 ys =>
      cases x with
      | nil => simp at hlen
      | cons x0 xt =>
        cases xt with
        | nil => simp at hlen
        | cons x1 xs =>
          cases j with
          | zero =>
            simp [cumtrapzAux]
          | succ j' =>
            have hlen' : (y1 :: ys).length = (x1 :: xs).length := by simpa using hlen
            have hj' : j' + 1 < (y1 :: ys).length := by
              simp only [List.length_cons] at hj ⊢
              omega
            simp only [cumtrapzAux, List.getD_cons_succ]
            rw [ih (x1 :: xs) (acc + (x1 - x0) * (y1 + y0) / 2) j' hlen' hj']
            conv_rhs => rw [Finset.sum_range_succ']
            simp only [List.getD_cons_succ, List.getD_cons_zero]
            ring

/-- `cumulative_trapezoid` preserves the input length for equal-length
non-empty inputs. -/
theorem cumulative_trapezoid_length (y x : List ℚ) (hlen : y.length = x.length)
    (hn : 1 ≤ y.length) : (cumulative_trapezoid y x).length = y.length := by
  cases y with
  | nil => simp at hn
  | cons y0 yt =>
    cases x with
    | nil => simp at hlen
    | cons x0 xt =>
      simp only [cumulative_trapezoid, List.length_cons]
      rw [cumtrapzAux_length _ _ _ hlen]
      simp

/-- Entry `j` of `cumulative_trapezoid y x` is the trapezoid sum of the
first `j` consecutive pairs. -/
theorem cumulative_trapezoid_getD (y x : List ℚ) (hlen : y.length = x.length) {j : ℕ}
    (hj : j < y.length) :
    (cumulative_trapezoid y x).getD j 0 =
      ∑ t ∈ Finset.range j,
        (x.getD (t + 1) 0 - x.getD t 0) * (y.getD (t + 1) 0 + y.getD t 0) / 2 := by
  cases y with
  | nil => simp at hj
  | cons y0 yt =>
    cases x with
    | nil => simp at hlen
    | cons x0 xt =>
      cases j with
      | zero => simp [cumulative_trapezoid]
      | succ j' =>
        simp only [cumulative_trapezoid, List.getD_cons_succ]
        rw [cumtrapzAux_getD (y0 :: yt) (x0 :: xt) 0 j' hlen hj]
        rw [zero_add]
        simp only [List.getD_cons_succ]

/-- The scipy summand and `trap` agree up to commutativity. -/
theorem cumtrapz_term_eq_trap (z q : List ℚ) (t : ℕ) :
    (z.getD (t + 1) 0 - z.getD t 0) * (q.getD (t + 1) 0 + q.getD t 0) / 2 = trap z q t := by
  rw [trap]
  ring

/-- Reversing both arrays negates and reflects the trapezoid areas. -/
theorem trap_reverse (z q : List ℚ) (hlen : z.length = q.length) {k : ℕ}
    (hk : k + 1 < z.length) :
    trap z.reverse q.reverse k = -(trap z q (z.length - 2 - k)) := by
  rw [trap, trap]
  rw [getD_reverse_eq z (by omega), getD_reverse_eq z (by omega),
    getD_reverse_eq q (by omega), getD_reverse_eq q (by omega)]
  rw [← hlen]
  have e1 : z.length - 1 - (k + 1) = z.length - 2 - k := by omega
  have e2 : z.length - 2 - k + 1 = z.length - 1 - k := by omega
  rw [e1, e2]
  ring

/-- The flip/cumtrapz/flip/negate pipeline produces the same backward
trapezoid sums as the direct loop, entry by entry. -/
theorem integrate_from_top_v1_getD (z q : List ℚ) (hlen : z.length = q.length)
    (hn : 1 ≤ z.length) {i : ℕ} (hi : i < z.length) :
    (integrate_from_top_v1 z q).getD i 0 = ∑ k ∈ Finset.Ico i (z.length - 1), trap z q k := by
  have hlrev : q.reverse.length = z.reverse.length := by simp [hlen]
  have hctlen : (cumulative_trapezoid q.reverse z.reverse).length = z.length := by
    rw [cumulative_trapezoid_length _ _ hlrev (by simp [← hlen]; omega)]
    simp [← hlen]
  have hmaplen : (((cumulative_trapezoid q.reverse z.reverse).reverse).map
      (fun a => -a)).length = z.length := by
    simp [hctlen]
  rw [integrate_from_top_v1]
  rw [List.getD_eq_getElem _ 0 (by rw [hmaplen]; exact hi)]
  rw [List.getElem_map, List.getElem_reverse]
  rw [← List.getD_eq_getElem (cumulative_trapezoid q.reverse z.reverse) 0
    (by rw [hctlen]; omega)]
  rw [hctlen]
  rw [cumulative_trapezoid_getD _ _ hlrev (by simp [← hlen]; omega)]
  have hterm : ∀ t ∈ Finset.range (z.length - 1 - i),
      (z.reverse.getD (t + 1) 0 - z.reverse.getD t 0) *
        (q.reverse.getD (t + 1) 0 + q.reverse.getD t 0) / 2
        = -(trap z q (z.length - 2 - t)) := by
    intro t ht
    rw [Finset.mem_range] at ht
    rw [cumtrapz_term_eq_trap]
    exact trap_reverse z q hlen (by omega)
  rw [Finset.sum_congr rfl hterm, Finset.sum_neg_distrib, neg_neg]
  rw [Finset.sum_Ico_eq_sum_range]
  have hrefl : ∀ t ∈ Finset.range (z.length - 1 - i),
      trap z q (z.length - 2 - t) =
        (fun s => trap z q (i + s)) (z.length - 1 - i - 1 - t) := by
    intro t ht
    rw [Finset.mem_range] at ht
    have : i + (z.length - 1 - i - 1 - t) = z.length - 2 - t := by omega
    simp only [this]
  rw [Finset.sum_congr rfl hrefl]
  exact Finset.sum_range_reflect (fun s => trap z q (i + s)) (z.length - 1 - i)

/-- Claim C1 (corrected).  The original claim fails: `integrate_from_top`
anchors its zero at the LAST index of the arrays, not at the index of the
largest-altitude endpoint; it never compares `altitude[0]` with
`altitude[-1]`.  Amended statement proved here: for every pair of arrays of
equal length `n >= 1`, the result is exactly `0` at the last index — which
is the top index precisely when the grid is stored in increasing order. -/
theorem integrate_from_top_zero_at_last_index (z : List ℚ) :
    ∀ q : List ℚ, z.length = q.length → 1 ≤ z.length →
    (integrate_from_top z q).getD (z.length - 1) 0 = 0 := by
  induction z with
  | nil => intro q _ h; simp at h
  | cons z0 zt ih =>
    intro q hlen _
    cases zt with
    | nil =>
      cases q with
      | nil => simp at hlen
      | cons q0 qt => simp [integrate_from_top]
    | cons z1 zs =>
      cases q with
      | nil => simp at hlen
      | cons q0 qt =>
        cases qt with
        | nil => simp at hlen
        | cons q1 qs =>
          have h := ih (q1 :: qs) (by simpa using hlen) (by simp)
          simp only [List.length_cons, Nat.add_sub_cancel] at h ⊢
          simpa only [integrate_from_top, List.getD_cons_succ] using h

/-- Claim C1, witness for the amended theorem at the concrete input
`altitude = [300, 250]`, `rate = [1, 1]`. -/
theorem integrate_from_top_zero_at_last_index_witness :
    (integrate_from_top [300, 250] [1, 1]).getD (([300, 250] : List ℚ).length - 1) 0 = 0 :=
  integrate_from_top_zero_at_last_index [300, 250] [1, 1] (by norm_num) (by norm_num)

/-- Claim C1, counterexample to the original claim: on the decreasing grid
`altitude = [300, 250]` with `rate = [1, 1]`, the top index (the index of
the largest altitude) is `0`, yet the result there is `-50`, not `0`. -/
theorem integrate_from_top_top_index_counterexample :
    (250 : ℚ) < 300 ∧ (integrate_from_top [300, 250] [1, 1]).getD 0 0 ≠ 0 := by
  constructor
  · norm_num
  · norm_num [integrate_from_top]

/-- Claim C2 (corrected).  As stated the claim fails on decreasing grids,
where the accumulation is anchored at the last (lowest-altitude) index, not
at the top index.  Amended statement proved here: for every equal-length
pair with strictly increasing altitude (so the top index is the last
index), `result[i]` is the cumulative sum of the pairwise trapezoid areas
`0.5 * (rate[k] + rate[k+1]) * (altitude[k+1] - altitude[k])` accumulated
from the top index toward `i`; and the concrete scenario
`altitude = [0,1,2,5,10]`, `rate = [10,10,10,10,10]` gives
`[100, 90, 80, 50, 0]`. -/
theorem integrate_from_top_cumsum_spec :
    (∀ z q : List ℚ, z.length = q.length → List.Chain' (fun a b => a < b) z →
      ∀ i : ℕ, (integrate_from_top z q).getD i 0 = ∑ k ∈ Finset.Ico i (z.length - 1), trap z q k)
    ∧ integrate_from_top [0, 1, 2, 5, 10] [10, 10, 10, 10, 10] = [100, 90, 80, 50, 0] := by
  constructor
  · intro z q hlen hz i
    exact integrate_from_top_getD z q hlen (chain'_lt_chain'_ne z hz) i
  · norm_num [integrate_from_top]

/-- Claim C2, witness for the universally quantified part at the concrete
input `altitude = [0, 1]`, `rate = [5, 7]`, index `0`. -/
theorem integrate_from_top_cumsum_spec_witness :
    (integrate_from_top [0, 1] [5, 7]).getD 0 0 =
      ∑ k ∈ Finset.Ico 0 (([0, 1] : List ℚ).length - 1), trap [0, 1] [5, 7] k :=
  integrate_from_top_cumsum_spec.1 [0, 1] [5, 7] (by norm_num) (by norm_num [List.chain'_pair]) 0

/-- Claim C2, counterexample to the original claim: on the decreasing grid
`altitude = [10, 0]`, `rate = [1, 1]`, index `1` differs from the top index
`0`, and the claim demands a cumulative value of magnitude `10` there (one
trapezoid away from the top); the code instead returns `0` at index `1`. -/
theorem integrate_from_top_cumsum_counterexample : (0 : ℚ) < 10 ∧
    ¬((integrate_from_top [10, 0] [1, 1]).getD 1 0 = 10 ∨
      (integrate_from_top [10, 0] [1, 1]).getD 1 0 = -10) := by
  constructor
  · norm_num
  · norm_num [integrate_from_top]

/-- Claim C3 (corrected).  `integrate_from_top` does not inspect which end
of the grid has the larger altitude, and reversing both inputs does NOT
reverse the output.  Amended statement proved here: on grids with
pairwise-distinct neighbours, reversing both arrays yields the reversal of
the original result shifted by the constant `-(result[0])`, i.e. the same
trapezoid profile re-anchored to zero at the opposite end. -/
theorem integrate_from_top_reverse_shifted (z q : List ℚ) (hlen : z.length = q.length)
    (hz : List.Chain' (fun a b => a ≠ b) z) :
    integrate_from_top z.reverse q.reverse =
      ((integrate_from_top z q).reverse).map
        (fun a => a - (integrate_from_top z q).getD 0 0) := by
  have hzrev : List.Chain' (fun a b => a ≠ b) z.reverse := by
    rw [List.chain'_reverse]
    exact hz.imp fun a b h => Ne.symm h
  have hlen1 : (integrate_from_top z.reverse q.reverse).length = z.length := by
    rw [integrate_from_top_length _ _ (by simp [hlen])]
    simp
  have hrlen : (integrate_from_top z q).length = z.length :=
    integrate_from_top_length z q (le_of_eq hlen)
  apply List.ext_getElem (by rw [hlen1]; simp [hrlen])
  intro i h1 h2
  have hi : i < z.length := by rwa [hlen1] at h1
  rw [← List.getD_eq_getElem _ 0 h1]
  rw [List.getElem_map, List.getElem_reverse]
  rw [← List.getD_eq_getElem (integrate_from_top z q) 0
    (by rw [hrlen]; omega)]
  rw [hrlen]
  rw [integrate_from_top_getD z.reverse q.reverse (by simp [hlen]) hzrev i]
  rw [integrate_from_top_getD z q hlen hz (z.length - 1 - i),
    integrate_from_top_getD z q hlen hz 0]
  have hlrev : z.reverse.length - 1 = z.length - 1 := by simp
  rw [hlrev]
  have hterm : ∀ k ∈ Finset.Ico i (z.length - 1),
      trap z.reverse q.reverse k = -(trap z q (z.length - 2 - k)) := by
    intro k hk
    rw [Finset.mem_Ico] at hk
    exact trap_reverse z q hlen (by omega)
  rw [Finset.sum_congr rfl hterm, Finset.sum_neg_distrib]
  rw [Finset.sum_Ico_eq_sum_range]
  have hrefl : ∀ t ∈ Finset.range (z.length - 1 - i),
      trap z q (z.length - 2 - (i + t)) =
        (fun s => trap z q s) (z.length - 1 - i - 1 - t) := by
    intro t ht
    rw [Finset.mem_range] at ht
    have he : z.length - 2 - (i + t) = z.length - 1 - i - 1 - t := by omega
    simp only [he]
  rw [Finset.sum_congr rfl hrefl]
  rw [Finset.sum_range_reflect (fun s => trap z q s) (z.length - 1 - i)]
  have hsplit : ∑ k ∈ Finset.Ico 0 (z.length - 1 - i), trap z q k
      + ∑ k ∈ Finset.Ico (z.length - 1 - i) (z.length - 1), trap z q k
      = ∑ k ∈ Finset.Ico 0 (z.length - 1), trap z q k :=
    Finset.sum_Ico_consecutive _ (by omega) (by omega)
  have hr : ∑ t ∈ Finset.range (z.length - 1 - i), trap z q t
      = ∑ k ∈ Finset.Ico 0 (z.length - 1 - i), trap z q k := by
    rw [← Finset.range_eq_Ico]
  rw [hr]
  have hr2 : ∑ k ∈ Finset.Ico 0 (z.length - 1), trap z q k
      = ∑ k ∈ Finset.Ico (z.length - 1 - i) (z.length - 1), trap z q k
        + ∑ k ∈ Finset.Ico 0 (z.length - 1 - i), trap z q k := by
    rw [← hsplit]
    ring
  rw [hr2]
  ring

/-- Claim C3, witness for the amended theorem at the concrete input
`altitude = [0, 1, 3]`, `rate = [2, 4, 6]`. -/
theorem integrate_from_top_reverse_shifted_witness :
    integrate_from_top ([0, 1, 3] : List ℚ).reverse ([2, 4, 6] : List ℚ).reverse =
      ((integrate_from_top [0, 1, 3] [2, 4, 6]).reverse).map
        (fun a => a - (integrate_from_top [0, 1, 3] [2, 4, 6]).getD 0 0) :=
  integrate_from_top_reverse_shifted [0, 1, 3] [2, 4, 6] (by norm_num)
    (by norm_num [List.chain'_cons])

/-- Claim C3, counterexample to the original claim: reversing both inputs
does not give the reversal of the original output.  For
`altitude = [0, 1, 3]`, `rate = [2, 4, 6]` the output is `[13, 10, 0]`, its
reversal `[0, 10, 13]`, but the reversed inputs produce `[-13, -3, 0]`. -/
theorem integrate_from_top_reverse_counterexample :
    integrate_from_top [3, 1, 0] [6, 4, 2] ≠
      (integrate_from_top [0, 1, 3] [2, 4, 6]).reverse := by
  norm_num [integrate_from_top]

/-- Claim C4 (corrected).  As stated the claim fails on decreasing grids:
the accumulation starts at the LAST index, so with the top (largest
altitude) at index `0`, a NaN spreads toward index `0` — the top side —
while the claim demands the top side stay finite.  Amended statement proved
here, restricted to strictly increasing grids (top index = last index): if
`rate` is NaN exactly at index `k`, then `result[i]` is NaN if and only if
`i ≤ k` and `i + 1 < n`, i.e. exactly at the indices whose accumulation
path from the last index crosses a trapezoid touching `k`; all other
entries (in particular every index strictly above `k`) stay finite, and no
exception is raised. -/
theorem integrate_from_top_nan_propagation (z : List ℚ) (q : List (Option ℚ)) (k : ℕ)
    (hlen : z.length = q.length)
    (hz : List.Chain' (fun a b => a < b) z) (hk : k < z.length)
    (hknan : q.getD k (some 0) = none)
    (hfin : ∀ j, j < z.length → j ≠ k → (q.getD j (some 0)).isSome) :
    ∀ i, i < z.length →
      ((integrate_from_top_nan z q).getD i (some 0) = none ↔
        (i ≤ k ∧ i + 1 < z.length)) := by
  intro i hi
  rw [integrate_from_top_nan_none_iff z q hlen (chain'_lt_chain'_ne z hz) i]
  constructor
  · rintro ⟨j, hij, hj1, hcond⟩
    rcases hcond with h | h
    · have hjk : j = k := by
        by_contra hne
        have hs := hfin j (by omega) hne
        rw [h] at hs
        simp at hs
      omega
    · have hjk : j + 1 = k := by
        by_contra hne
        have hs := hfin (j + 1) (by omega) hne
        rw [h] at hs
        simp at hs
      omega
  · rintro ⟨hik, hin⟩
    by_cases hkn : k + 1 < z.length
    · exact ⟨k, hik, hkn, Or.inl hknan⟩
    · refine ⟨k - 1, by omega, by omega, Or.inr ?_⟩
      have hkk : k - 1 + 1 = k := by omega
      rw [hkk]
      exact hknan

/-- Claim C4, witness for the amended theorem at the concrete increasing
grid `[0, 1, 2]` with NaN at rate index `1`, evaluated at index `0`. -/
theorem integrate_from_top_nan_propagation_witness :
    (integrate_from_top_nan [0, 1, 2] [some 1, none, some 1]).getD 0 (some 0) = none ↔
      (0 ≤ 1 ∧ 0 + 1 < ([0, 1, 2] : List ℚ).length) :=
  integrate_from_top_nan_propagation [0, 1, 2] [some 1, none, some 1] 1 (by norm_num)
    (by norm_num [List.chain'_cons]) (by norm_num) (by rfl)
    (fun j hj hne => by
      have h3 : j < 3 := by simpa using hj
      interval_cases j <;> simp_all) 0 (by norm_num)

/-- Claim C4, counterexample to the original claim: on the decreasing grid
`[300, 250, 200]` with NaN at rate index `1`, index `0` lies strictly on
the top side of the NaN (the top index is `0`, the largest altitude), so the
claim demands it stay finite, yet the code produces NaN there. -/
theorem integrate_from_top_nan_counterexample : (250 : ℚ) < 300 ∧ (200 : ℚ) < 250 ∧
    (integrate_from_top_nan [300, 250, 200] [some 1, none, some 1]).getD 0 (some 0) = none := by
  refine ⟨by norm_num, by norm_num, ?_⟩
  norm_num [integrate_from_top_nan, nadd]

/-- Splitting the failing-read condition of the loop across the leading
grid segment. -/
theorem fail_cond_cons (z0 z1 : ℚ) (zs : List ℚ) (b : ℕ) :
    (∃ k : ℕ, k + 1 < (z0 :: z1 :: zs).length ∧ b ≤ k + 1 ∧
      (z0 :: z1 :: zs).getD (k + 1) 0 ≠ (z0 :: z1 :: zs).getD k 0)
    ↔ ((b ≤ 1 ∧ z1 ≠ z0) ∨ (∃ k : ℕ, k + 1 < (z1 :: zs).length ∧ b ≤ k + 2 ∧
      (z1 :: zs).getD (k + 1) 0 ≠ (z1 :: zs).getD k 0)) := by
  constructor
  · rintro ⟨k, hk1, hk2, hk3⟩
    cases k with
    | zero =>
      left
      exact ⟨hk2, by simpa using hk3⟩
    | succ k' =>
      right
      refine ⟨k', ?_, by omega, ?_⟩
      · simp only [List.length_cons] at hk1 ⊢
        omega
      · simpa using hk3
  · rintro (⟨hb, hne⟩ | ⟨k, hk1, hk2, hk3⟩)
    · refine ⟨0, ?_, hb, by simpa using hne⟩
      simp only [List.length_cons]
      omega
    · refine ⟨k + 1, ?_, by omega, by simpa using hk3⟩
      simp only [List.length_cons] at hk1 ⊢
      omega

/-- Error characterisation of the loop: an index error occurs exactly when
some step with both rate reads out of range (`len(rate) <= k + 1`, step
`k`..`k+1` still inside the grid) has a nonzero altitude difference — the
guarded read is only performed, and hence only fails, on such steps. -/
theorem integrate_from_top_run_error_char (z : List ℚ) : ∀ q : List ℚ,
    (integrate_from_top_run z q = Except.error IntegrationError.indexOutOfBounds ↔
      ∃ k : ℕ, k + 1 < z.length ∧ q.length ≤ k + 1 ∧ z.getD (k + 1) 0 ≠ z.getD k 0) := by
  induction z with
  | nil =>
    intro q
    constructor
    · intro h
      simp [integrate_from_top_run] at h
    · rintro ⟨k, hk, -, -⟩
      simp at hk
  | cons z0 zt ih =>
    intro q
    cases zt with
    | nil =>
      constructor
      · intro h
        cases q with
        | nil => simp [integrate_from_top_run] at h
        | cons a t => simp [integrate_from_top_run] at h
      · rintro ⟨k, hk, -, -⟩
        simp at hk
    | cons z1 zs =>
      rcases q with - | ⟨q0, qt⟩
      · rw [fail_cond_cons z0 z1 zs ([] : List ℚ).length]
        by_cases hdz : z1 - z0 = 0
        · have hz10 : z1 = z0 := sub_eq_zero.mp hdz
          have h := ih ([] : List ℚ)
          cases hrun : integrate_from_top_run (z1 :: zs) ([] : List ℚ) with
          | error e =>
            cases e
            rw [hrun] at h
            obtain ⟨k, hk1, hk2, hk3⟩ := h.mp rfl
            have hfull : integrate_from_top_run (z0 :: z1 :: zs) ([] : List ℚ) =
                Except.error IntegrationError.indexOutOfBounds := by
              simp [integrate_from_top_run, if_pos hdz, hrun]
            rw [hfull]
            constructor
            · intro _
              exact Or.inr ⟨k, hk1, by simp, hk3⟩
            · intro _
              rfl
          | ok rest =>
            rw [hrun] at h
            have hfull : integrate_from_top_run (z0 :: z1 :: zs) ([] : List ℚ) =
                Except.ok (0 :: rest) := by
              simp [integrate_from_top_run, if_pos hdz, hrun]
            rw [hfull]
            constructor
            · intro hcon
              exact absurd hcon (by simp)
            · rintro (⟨-, hne⟩ | ⟨k, hk1, -, hk3⟩)
              · exact absurd hz10 hne
              · exact absurd (h.mpr ⟨k, hk1, by simp, hk3⟩) (by simp)
        · have hz10 : z1 ≠ z0 := sub_ne_zero.mp hdz
          have hfull : integrate_from_top_run (z0 :: z1 :: zs) ([] : List ℚ) =
              Except.error IntegrationError.indexOutOfBounds := by
            simp [integrate_from_top_run, if_neg hdz]
          rw [hfull]
          constructor
          · intro _
            exact Or.inl ⟨by simp, hz10⟩
          · intro _
            rfl
      · rcases qt with - | ⟨q1, qs⟩
        · rw [fail_cond_cons z0 z1 zs ([q0] : List ℚ).length]
          by_cases hdz : z1 - z0 = 0
          · have hz10 : z1 = z0 := sub_eq_zero.mp hdz
            have h := ih ([] : List ℚ)
            cases hrun : integrate_from_top_run (z1 :: zs) ([] : List ℚ) with
            | error e =>
              cases e
              rw [hrun] at h
              obtain ⟨k, hk1, hk2, hk3⟩ := h.mp rfl
              have hfull : integrate_from_top_run (z0 :: z1 :: zs) [q0] =
                  Except.error IntegrationError.indexOutOfBounds := by
                simp [integrate_from_top_run, if_pos hdz, hrun]
              rw [hfull]
              constructor
              · intro _
                exact Or.inr ⟨k, hk1, by simp, hk3⟩
              · intro _
                rfl
            | ok rest =>
              rw [hrun] at h
              have hfull : integrate_from_top_run (z0 :: z1 :: zs) [q0] =
                  Except.ok (0 :: rest) := by
                simp [integrate_from_top_run, if_pos hdz, hrun]
              rw [hfull]
              constructor
              · intro hcon
                exact absurd hcon (by simp)
              · rintro (⟨-, hne⟩ | ⟨k, hk1, -, hk3⟩)
                · exact absurd hz10 hne
                · exact absurd (h.mpr ⟨k, hk1, by simp, hk3⟩) (by simp)
          · have hz10 : z1 ≠ z0 := sub_ne_zero.mp hdz
            have hfull : integrate_from_top_run (z0 :: z1 :: zs) [q0] =
                Except.error IntegrationError.indexOutOfBounds := by
              simp [integrate_from_top_run, if_neg hdz]
            rw [hfull]
            constructor
            · intro _
              exact Or.inl ⟨by simp, hz10⟩
            · intro _
              rfl
        · rw [fail_cond_cons z0 z1 zs (q0 :: q1 :: qs : List ℚ).length]
          have h := ih (q1 :: qs)
          cases hrun : integrate_from_top_run (z1 :: zs) (q1 :: qs) with
          | error e =>
            cases e
            rw [hrun] at h
            obtain ⟨k, hk1, hk2, hk3⟩ := h.mp rfl
            have hfull : integrate_from_top_run (z0 :: z1 :: zs) (q0 :: q1 :: qs) =
                Except.error IntegrationError.indexOutOfBounds := by
              simp [integrate_from_top_run, hrun]
            rw [hfull]
            constructor
            · intro _
              refine Or.inr ⟨k, hk1, ?_, hk3⟩
              simp only [List.length_cons] at hk2 ⊢
              omega
            · intro _
              rfl
          | ok rest =>
            rw [hrun] at h
            have hfull : integrate_from_top_run (z0 :: z1 :: zs) (q0 :: q1 :: qs) =
                Except.ok ((if z1 - z0 = 0 then 0
                  else rest.headD 0 + 1 / 2 * (q0 + q1) * (z1 - z0)) :: rest) := by
              simp [integrate_from_top_run, hrun]
            rw [hfull]
            constructor
            · intro hcon
              exact absurd hcon (by simp)
            · rintro (⟨hb, -⟩ | ⟨k, hk1, hk2, hk3⟩)
              · simp at hb
              · refine absurd (h.mpr ⟨k, hk1, ?_, hk3⟩) (by simp)
                simp only [List.length_cons] at hk2 ⊢
                omega

/-- Clean-run characterisation of the loop: when every out-of-range step
has zero width, no read fails and the result is that of the pure loop with
the missing rate entries irrelevant (padded by zeros, which those skipped
steps never read). -/
theorem integrate_from_top_run_ok_char (z : List ℚ) : ∀ q : List ℚ,
    (∀ k : ℕ, k + 1 < z.length → q.length ≤ k + 1 → z.getD (k + 1) 0 = z.getD k 0) →
    integrate_from_top_run z q =
      Except.ok (integrate_from_top z (q ++ List.replicate (z.length - q.length) 0)) := by
  induction z with
  | nil =>
    intro q _
    cases q <;> simp [integrate_from_top_run, integrate_from_top]
  | cons z0 zt ih =>
    intro q hno
    cases zt with
    | nil =>
      cases q <;> simp [integrate_from_top_run, integrate_from_top]
    | cons z1 zs =>
      rcases q with - | ⟨q0, qt⟩
      · have hdz : z1 - z0 = 0 := by
          have h := hno 0 (by simp only [List.length_cons]; omega) (by simp)
          simp only [List.getD_cons_succ, List.getD_cons_zero] at h
          rw [h, sub_self]
        have hnotail : ∀ k : ℕ, k + 1 < (z1 :: zs).length → ([] : List ℚ).length ≤ k + 1 →
            (z1 :: zs).getD (k + 1) 0 = (z1 :: zs).getD k 0 := by
          intro k hk _
          have h := hno (k + 1) (by simp only [List.length_cons] at hk ⊢; omega) (by simp)
          simpa only [List.getD_cons_succ] using h
        have htail := ih ([] : List ℚ) hnotail
        simp only [integrate_from_top_run, if_pos hdz, htail]
        simp only [List.nil_append, List.length_cons, List.length_nil, Nat.sub_zero]
        rw [List.replicate_succ, List.replicate_succ]
        simp [integrate_from_top, if_pos hdz, List.replicate_succ]
      · rcases qt with - | ⟨q1, qs⟩
        · have hdz : z1 - z0 = 0 := by
            have h := hno 0 (by simp only [List.length_cons]; omega) (by simp)
            simp only [List.getD_cons_succ, List.getD_cons_zero] at h
            rw [h, sub_self]
          have hnotail : ∀ k : ℕ, k + 1 < (z1 :: zs).length → ([] : List ℚ).length ≤ k + 1 →
              (z1 :: zs).getD (k + 1) 0 = (z1 :: zs).getD k 0 := by
            intro k hk _
            have h := hno (k + 1) (by simp only [List.length_cons] at hk ⊢; omega) (by simp)
            simpa only [List.getD_cons_succ] using h
          have htail := ih ([] : List ℚ) hnotail
          simp only [integrate_from_top_run, if_pos hdz, htail]
          simp only [List.nil_append, List.length_cons, List.length_nil, Nat.sub_zero]
          have hsub : zs.length + 1 + 1 - (0 + 1) = zs.length + 1 := by omega
          rw [hsub, List.replicate_succ]
          simp [integrate_from_top, if_pos hdz, List.cons_append, List.replicate_succ]
        · have hnotail : ∀ k : ℕ, k + 1 < (z1 :: zs).length → (q1 :: qs).length ≤ k + 1 →
              (z1 :: zs).getD (k + 1) 0 = (z1 :: zs).getD k 0 := by
            intro k hk hq
            have h := hno (k + 1) (by simp only [List.length_cons] at hk ⊢; omega)
              (by simp only [List.length_cons] at hq ⊢; omega)
            simpa only [List.getD_cons_succ] using h
          have htail := ih (q1 :: qs) hnotail
          simp only [integrate_from_top_run, htail]
          have hm : (z1 :: zs).length - (q1 :: qs).length
              = (z0 :: z1 :: zs).length - (q0 :: q1 :: qs).length := by
            simp only [List.length_cons]
            omega
          rw [hm]
          simp [integrate_from_top, List.cons_append]

/-- Claim C5 (corrected).  The Python function performs no shape validation
at all and never raises a ShapeMismatch error; the claimed "raises if and
only if lengths differ" is false.  What it actually does, proved here: the
only failure is numpy's index-out-of-bounds error from the rate reads
inside the `dz != 0` guard, and it occurs exactly when some loop step whose
rate entries lie past the end of the rate array has a nonzero altitude
difference — in particular, on grids with no zero-width steps (all
monotonic grids), exactly when `len(altitude) >= 2` and
`len(rate) < len(altitude)`.  An exception discards everything, so no
partial result escapes.  In every other case — equal lengths, longer rate
arrays (surplus entries silently ignored), degenerate altitude lengths `0`
and `1`, or short rate arrays whose out-of-range steps all have zero
width (the guard skips the read and leaves `0`) — it returns a clean
result and raises nothing, whatever the data values. -/
theorem integrate_from_top_run_error_iff (z q : List ℚ) :
    (integrate_from_top_run z q = Except.error IntegrationError.indexOutOfBounds ↔
      ∃ k : ℕ, k + 1 < z.length ∧ q.length ≤ k + 1 ∧ z.getD (k + 1) 0 ≠ z.getD k 0)
    ∧ ((∀ k : ℕ, k + 1 < z.length → q.length ≤ k + 1 → z.getD (k + 1) 0 = z.getD k 0) →
      integrate_from_top_run z q =
        Except.ok (integrate_from_top z (q ++ List.replicate (z.length - q.length) 0))) :=
  ⟨integrate_from_top_run_error_char z q, integrate_from_top_run_ok_char z q⟩

/-- Claim C5, witness at the concrete input `altitude = [5, 5]`,
`rate = [1]`: its only out-of-range step has zero width, so the clean-run
clause of the theorem applies and yields `[0, 0]` with no error, even
though the lengths differ. -/
theorem integrate_from_top_run_error_iff_witness :
    integrate_from_top_run [5, 5] [1] = Except.ok [0, 0] := by
  have h := (integrate_from_top_run_error_iff [5, 5] [1]).2
    (fun k hk _ => by
      have hk0 : k = 0 := by
        have h2 : k + 1 < 2 := by simpa using hk
        omega
      subst hk0
      norm_num)
  rw [h]
  norm_num [integrate_from_top, List.replicate]

/-- Claim C5, counterexample to the original claim: the unequal-length pair
`altitude = [5]` (length 1), `rate = []` (length 0) raises nothing at all
and returns `[0]`, so a length mismatch does not imply an error. -/
theorem integrate_from_top_no_shape_check :
    (([5] : List ℚ).length ≠ ([] : List ℚ).length) ∧
    integrate_from_top_run [5] [] = Except.ok [0] := by
  constructor
  · norm_num
  · rfl

/-- Claim C6 (corrected).  As stated the claim fails on decreasing grids:
the code anchors at the last index, so for a decreasing grid and constant
rate `C` the entry at the last index is `0` while the claim demands
`C * |altitude[top] - altitude[last]| ≠ 0` there.  Amended statement proved
here, restricted to strictly increasing grids: for constant rate `C` every
entry equals `C * |altitude[last] - altitude[i]|` exactly, and for a linear
rate `m * altitude[i] + b` every entry equals the closed-form antiderivative
difference between the last grid point and point `i` — the trapezoidal rule
is exact for constant and linear profiles on any such grid, uniform or not. -/
theorem integrate_from_top_exact_const_linear :
    (∀ (z q : List ℚ) (C : ℚ), z.length = q.length →
      List.Chain' (fun a b => a < b) z →
      (∀ i, i < z.length → q.getD i 0 = C) →
      ∀ i, i < z.length →
        (integrate_from_top z q).getD i 0 = C * |z.getD (z.length - 1) 0 - z.getD i 0|)
    ∧ (∀ (z q : List ℚ) (m b : ℚ), z.length = q.length →
      List.Chain' (fun a b => a < b) z →
      (∀ i, i < z.length → q.getD i 0 = m * z.getD i 0 + b) →
      ∀ i, i < z.length →
        (integrate_from_top z q).getD i 0 =
          (m * (z.getD (z.length - 1) 0) ^ 2 / 2 + b * z.getD (z.length - 1) 0)
            - (m * (z.getD i 0) ^ 2 / 2 + b * z.getD i 0)) := by
  constructor
  · intro z q C hlen hz hq i hi
    have h := integrate_from_top_affine_getD z q 0 C hlen hz
      (fun j hj => by rw [hq j hj]; ring) hi
    rw [h]
    have hle : z.getD i 0 ≤ z.getD (z.length - 1) 0 :=
      chain'_lt_getD_le z hz (by omega) (by omega)
    rw [abs_of_nonneg (by linarith)]
    ring
  · intro z q m b hlen hz hq i hi
    exact integrate_from_top_affine_getD z q m b hlen hz hq hi

/-- Claim C6, witness for the constant-profile part at the concrete input
`altitude = [0, 2]`, constant rate `5`, index `0`. -/
theorem integrate_from_top_exact_const_linear_witness :
    (integrate_from_top [0, 2] [5, 5]).getD 0 0 =
      5 * |([0, 2] : List ℚ).getD (([0, 2] : List ℚ).length - 1) 0 - ([0, 2] : List ℚ).getD 0 0| :=
  integrate_from_top_exact_const_linear.1 [0, 2] [5, 5] 5 (by norm_num)
    (by norm_num [List.chain'_pair])
    (fun i hi => by
      have h2 : i < 2 := by simpa using hi
      interval_cases i <;> norm_num) 0 (by norm_num)

/-- Claim C6, counterexample to the original claim: on the decreasing grid
`altitude = [10, 0]` with constant rate `3` and top index `0`, the claim
demands `result[1] = 3 * |10 - 0| = 30`, but the code returns `0` there. -/
theorem integrate_from_top_const_counterexample : (0 : ℚ) < 10 ∧
    (integrate_from_top [10, 0] [3, 3]).getD 1 0 ≠ 3 * |(10 : ℚ) - 0| := by
  constructor
  · norm_num
  · norm_num [integrate_from_top]

/-- Claim C7 (corrected).  As stated the claim fails on decreasing grids:
there the magnitude is largest AT the top index (index `0`) and shrinks to
`0` at the last index, the opposite of "non-decreasing away from the top".
Amended statement proved here, restricted to strictly increasing grids
(top = last index): for elementwise non-negative rates, the magnitude of
the output does not decrease as the index moves away from the last index,
i.e. `|result[i]| ≤ |result[j]|` whenever `j ≤ i`. -/
theorem integrate_from_top_magnitude_monotone (z q : List ℚ) (hlen : z.length = q.length)
    (hz : List.Chain' (fun a b => a < b) z)
    (hq : ∀ i, i < z.length → 0 ≤ q.getD i 0)
    {i j : ℕ} (hji : j ≤ i) (hi : i < z.length) :
    |(integrate_from_top z q).getD i 0| ≤ |(integrate_from_top z q).getD j 0| := by
  have hne := chain'_lt_chain'_ne z hz
  rw [integrate_from_top_getD z q hlen hne i, integrate_from_top_getD z q hlen hne j]
  have htrap : ∀ k ∈ Finset.Ico j (z.length - 1), 0 ≤ trap z q k := by
    intro k hk
    rw [Finset.mem_Ico] at hk
    exact trap_nonneg_of_increasing z q hlen hz hq (by omega)
  have hsub : Finset.Ico i (z.length - 1) ⊆ Finset.Ico j (z.length - 1) :=
    Finset.Ico_subset_Ico hji le_rfl
  rw [abs_of_nonneg (Finset.sum_nonneg fun k hk => htrap k (hsub hk)),
    abs_of_nonneg (Finset.sum_nonneg htrap)]
  exact Finset.sum_le_sum_of_subset_of_nonneg hsub fun k hk _ => htrap k hk

/-- Claim C7, witness for the amended theorem at the concrete input
`altitude = [0, 1]`, `rate = [4, 6]`, indices `1` and `0`. -/
theorem integrate_from_top_magnitude_monotone_witness :
    |(integrate_from_top [0, 1] [4, 6]).getD 1 0| ≤
      |(integrate_from_top [0, 1] [4, 6]).getD 0 0| :=
  integrate_from_top_magnitude_monotone [0, 1] [4, 6] (by norm_num)
    (by norm_num [List.chain'_pair])
    (fun i hi => by
      have h2 : i < 2 := by simpa using hi
      interval_cases i <;> norm_num) (by norm_num) (by norm_num)

/-- Claim C7, counterexample to the original claim: on the decreasing grid
`altitude = [100, 50]` with non-negative rates `[2, 2]`, the top index is
`0` and index `1` is farther from it, yet `|result[0]| = 100` exceeds
`|result[1]| = 0`. -/
theorem integrate_from_top_magnitude_counterexample : (50 : ℚ) < 100 ∧
    ¬(|(integrate_from_top [100, 50] [2, 2]).getD 0 0| ≤
      |(integrate_from_top [100, 50] [2, 2]).getD 1 0|) := by
  constructor
  · norm_num
  · norm_num [integrate_from_top]

/-- Claim C8 (confirmed).  A single-element input pair produces exactly
`[0]`, and the empty pair produces the empty sequence; both cases return
cleanly without any error. -/
theorem integrate_from_top_degenerate_inputs :
    (∀ z0 q0 : ℚ, integrate_from_top_run [z0] [q0] = Except.ok [0])
    ∧ integrate_from_top_run ([] : List ℚ) ([] : List ℚ) = Except.ok [] :=
  ⟨fun _ _ => rfl, rfl⟩

/-- Claim C10 (confirmed).  On every strictly increasing altitude grid with
an aligned rate profile, the flip/cumtrapz/flip-with-final-negation
implementation `integrate_from_top_v1` returns exactly the same output
sequence as the direct backward-accumulation loop `integrate_from_top`
(which is also, re-indexed, `analytical_cumulative_manual`). -/
theorem integrate_from_top_v1_eq_loop (z q : List ℚ) (hlen : z.length = q.length)
    (hn : 1 ≤ z.length) (hz : List.Chain' (fun a b => a < b) z) :
    integrate_from_top_v1 z q = integrate_from_top z q := by
  have hctlen : (cumulative_trapezoid q.reverse z.reverse).length = z.length := by
    rw [cumulative_trapezoid_length _ _ (by simp [hlen]) (by simp [← hlen]; omega)]
    simp [← hlen]
  have hlen1 : (integrate_from_top_v1 z q).length = z.length := by
    simp [integrate_from_top_v1, hctlen]
  have hlen2 : (integrate_from_top z q).length = z.length :=
    integrate_from_top_length z q (le_of_eq hlen)
  apply List.ext_getElem (by rw [hlen1, hlen2])
  intro i h1 h2
  have hi : i < z.length := by rwa [hlen1] at h1
  rw [← List.getD_eq_getElem _ 0 h1, ← List.getD_eq_getElem _ 0 h2]
  rw [integrate_from_top_v1_getD z q hlen hn hi,
    integrate_from_top_getD z q hlen (chain'_lt_chain'_ne z hz) i]

/-- Claim C10, witness at the concrete input `altitude = [0, 1, 3]`,
`rate = [5, 7, 11]`. -/
theorem integrate_from_top_v1_eq_loop_witness :
    integrate_from_top_v1 [0, 1, 3] [5, 7, 11] = integrate_from_top [0, 1, 3] [5, 7, 11] :=
  integrate_from_top_v1_eq_loop [0, 1, 3] [5, 7, 11] (by norm_num) (by norm_num)
    (by norm_num [List.chain'_cons])

end Impact
